import Mathlib

/-!
Verification development for the FLTK GDI graphics driver
(`src/drivers/GDI/Fl_GDI_Graphics_Driver_rect.cxx`).

The embedding models Windows GDI regions as finite unions of integer
pixel rectangles.  A region's meaning is its set of device pixels; the
Win32 region calls used by the driver (`CreateRectRgn`, `CombineRgn`
with `RGN_AND`, `EqualRgn`, `GetRgnBox`, `RectInRegion`) are modelled
by their documented pixel-set semantics.  The driver functions
(`push_clip`, `clip_box`, `not_clipped`, pen handling, the line and
focus-rectangle primitives) are translated directly from the source.
The display-device path of `clip_box`/`not_clipped` is modelled; the
print-context branch (a `DPtoLP`/`LPtoDP` round trip) is outside the
clip logic these theorems are about.
-/

namespace FlGDI

/-- A device-space rectangle given as origin and extent, as in the
`(x, y, w, h)` quadruples used throughout the driver.  Its pixel set is
`[x, x+w) × [y, y+h)`; a rectangle with `w ≤ 0` or `h ≤ 0` covers no
pixel. -/
structure Rect where
  x : Int
  y : Int
  w : Int
  h : Int
deriving DecidableEq

/-- Pixel membership of a rectangle. -/
def Rect.memb (r : Rect) (px py : Int) : Bool :=
  decide (r.x ≤ px) && decide (px < r.x + r.w) &&
  decide (r.y ≤ py) && decide (py < r.y + r.h)

theorem Rect.memb_iff (r : Rect) (px py : Int) :
    r.memb px py = true ↔
      r.x ≤ px ∧ px < r.x + r.w ∧ r.y ≤ py ∧ py < r.y + r.h := by
  simp [Rect.memb, and_assoc]

/-- A GDI region, modelled as a finite union of rectangles.  The empty
list is the empty region (`CreateRectRgn(0,0,0,0)`). -/
abbrev Region := List Rect

/-- Pixel membership of a region: the union of its rectangles. -/
def Region.memb (R : Region) (px py : Int) : Bool :=
  R.any fun r => r.memb px py

theorem Region.memb_exists_iff (R : Region) (px py : Int) :
    R.memb px py = true ↔ ∃ r ∈ R, r.memb px py = true := by
  simp [Region.memb]

/-- Intersection of two rectangles (possibly degenerate). -/
def Rect.inter (a b : Rect) : Rect :=
  { x := max a.x b.x
    y := max a.y b.y
    w := min (a.x + a.w) (b.x + b.w) - max a.x b.x
    h := min (a.y + a.h) (b.y + b.h) - max a.y b.y }

theorem Rect.inter_memb (a b : Rect) (px py : Int) :
    (a.inter b).memb px py = true ↔
      (a.memb px py = true ∧ b.memb px py = true) := by
  simp only [Rect.memb_iff, Rect.inter]
  omega

/-- Region intersection: the model of `CombineRgn(dst, A, B, RGN_AND)`.
All pairwise rectangle intersections, keeping the non-degenerate ones.
The result is `[]` exactly when the two regions share no pixel
(`CombineRgn` reporting `NULLREGION`). -/
def Region.inter (A B : Region) : Region :=
  (A.flatMap fun a => B.map fun b => a.inter b).filter
    fun r => decide (0 < r.w) && decide (0 < r.h)

theorem Region.inter_pos {A B : Region} {r : Rect}
    (h : r ∈ Region.inter A B) : 0 < r.w ∧ 0 < r.h := by
  have := List.of_mem_filter h
  simp at this
  exact this

theorem Region.memb_inter (A B : Region) (px py : Int) :
    (Region.inter A B).memb px py = true ↔
      (A.memb px py = true ∧ B.memb px py = true) := by
  constructor
  · intro h
    rcases (Region.memb_exists_iff _ _ _).1 h with ⟨r, hr, hmem⟩
    have hr' := List.mem_filter.1 hr
    rcases List.mem_flatMap.1 hr'.1 with ⟨a, ha, hab⟩
    rcases List.mem_map.1 hab with ⟨b, hb, rfl⟩
    have := (Rect.inter_memb a b px py).1 hmem
    exact ⟨(Region.memb_exists_iff _ _ _).2 ⟨a, ha, this.1⟩,
           (Region.memb_exists_iff _ _ _).2 ⟨b, hb, this.2⟩⟩
  · rintro ⟨hA, hB⟩
    rcases (Region.memb_exists_iff _ _ _).1 hA with ⟨a, ha, hmema⟩
    rcases (Region.memb_exists_iff _ _ _).1 hB with ⟨b, hb, hmemb⟩
    have hmem : (a.inter b).memb px py = true :=
      (Rect.inter_memb a b px py).2 ⟨hmema, hmemb⟩
    have hpos : 0 < (a.inter b).w ∧ 0 < (a.inter b).h := by
      have := (Rect.memb_iff _ _ _).1 hmem
      omega
    refine (Region.memb_exists_iff _ _ _).2 ⟨a.inter b, ?_, hmem⟩
    refine List.mem_filter.2 ⟨List.mem_flatMap.2 ⟨a, ha, ?_⟩, ?_⟩
    · exact List.mem_map.2 ⟨b, hb, rfl⟩
    · simp [hpos.1, hpos.2]

theorem Region.inter_eq_nil_iff (A B : Region) :
    Region.inter A B = [] ↔
      ∀ px py, ¬(A.memb px py = true ∧ B.memb px py = true) := by
  constructor
  · intro hnil px py ⟨hA, hB⟩
    have := (Region.memb_inter A B px py).2 ⟨hA, hB⟩
    rw [hnil] at this
    simp [Region.memb] at this
  · intro hnone
    by_contra hne
    match hI : Region.inter A B with
    | [] => exact hne hI
    | r :: rs =>
      have hrmem : r ∈ Region.inter A B := by rw [hI]; exact List.mem_cons_self r rs
      have hpos := Region.inter_pos hrmem
      have hpix : r.memb r.x r.y = true := by
        rw [Rect.memb_iff]; omega
      have : (Region.inter A B).memb r.x r.y = true :=
        (Region.memb_exists_iff _ _ _).2 ⟨r, hrmem, hpix⟩
      exact hnone r.x r.y ((Region.memb_inter A B r.x r.y).1 this)

/-- Does region `B` cover every pixel of rectangle `r`?  Decided by
enumerating the (finitely many) pixels of `r`. -/
def rectCovered (r : Rect) (B : Region) : Bool :=
  (List.range r.w.toNat).all fun i =>
    (List.range r.h.toNat).all fun j =>
      B.memb (r.x + i) (r.y + j)

theorem rectCovered_iff (r : Rect) (B : Region) :
    rectCovered r B = true ↔
      ∀ px py, r.memb px py = true → B.memb px py = true := by
  constructor
  · intro hcov px py hmem
    rw [Rect.memb_iff] at hmem
    have hi : (px - r.x).toNat < r.w.toNat := by omega
    have hj : (py - r.y).toNat < r.h.toNat := by omega
    have := (List.all_eq_true.1 hcov) _ (List.mem_range.2 hi)
    have := (List.all_eq_true.1 this) _ (List.mem_range.2 hj)
    have hx : r.x + ((px - r.x).toNat : Int) = px := by omega
    have hy : r.y + ((py - r.y).toNat : Int) = py := by omega
    rwa [hx, hy] at this
  · intro hsub
    refine List.all_eq_true.2 fun i hi => List.all_eq_true.2 fun j hj => ?_
    rw [List.mem_range] at hi hj
    refine hsub _ _ ?_
    rw [Rect.memb_iff]
    omega

/-- Is the pixel set of `A` contained in that of `B`? -/
def subRegion (A B : Region) : Bool :=
  A.all fun r => rectCovered r B

theorem subRegion_iff (A B : Region) :
    subRegion A B = true ↔
      ∀ px py, A.memb px py = true → B.memb px py = true := by
  constructor
  · intro hall px py hmem
    rcases (Region.memb_exists_iff _ _ _).1 hmem with ⟨r, hr, hrmem⟩
    exact (rectCovered_iff r B).1 ((List.all_eq_true.1 hall) _ hr) px py hrmem
  · intro hsub
    refine List.all_eq_true.2 fun r hr => (rectCovered_iff r B).2 ?_
    intro px py hrmem
    exact hsub px py ((Region.memb_exists_iff _ _ _).2 ⟨r, hr, hrmem⟩)

/-- Model of the Win32 `EqualRgn` test: two regions are equal when they
cover exactly the same pixels. -/
def equalRgn (A B : Region) : Bool :=
  subRegion A B && subRegion B A

theorem equalRgn_iff (A B : Region) :
    equalRgn A B = true ↔ ∀ px py, A.memb px py = B.memb px py := by
  rw [equalRgn, Bool.and_eq_true, subRegion_iff, subRegion_iff]
  constructor
  · intro ⟨h1, h2⟩ px py
    cases hA : A.memb px py with
    | true => exact (h1 px py hA).symm
    | false =>
      cases hB : B.memb px py with
      | true => rw [h2 px py hB] at hA; exact hA.symm
      | false => rfl
  · intro h
    exact ⟨fun px py hA => (h px py) ▸ hA, fun px py hB => (h px py).symm ▸ hB⟩

/-- Model of `GetRgnBox` on a region listed as a head rectangle plus a
tail: the `(left, top, right, bottom)` bounding box of the union.  The
driver only calls this on non-empty intersections, whose rectangles are
all non-degenerate. -/
def bboxNE : Rect → Region → Int × Int × Int × Int
  | r, [] => (r.x, r.y, r.x + r.w, r.y + r.h)
  | r, r2 :: rs =>
    let rest := bboxNE r2 rs
    (min r.x rest.1, min r.y rest.2.1,
     max (r.x + r.w) rest.2.2.1, max (r.y + r.h) rest.2.2.2)

theorem bboxNE_mem_bounds (r : Rect) (rs : Region) (px py : Int)
    (h : Region.memb (r :: rs) px py = true) :
    (bboxNE r rs).1 ≤ px ∧ px < (bboxNE r rs).2.2.1 ∧
    (bboxNE r rs).2.1 ≤ py ∧ py < (bboxNE r rs).2.2.2 := by
  induction rs generalizing r with
  | nil =>
    rcases (Region.memb_exists_iff _ _ _).1 h with ⟨t, ht, htm⟩
    simp at ht
    subst ht
    rw [Rect.memb_iff] at htm
    simp [bboxNE]
    omega
  | cons r2 rs ih =>
    rcases (Region.memb_exists_iff _ _ _).1 h with ⟨t, ht, htm⟩
    rcases List.mem_cons.1 ht with rfl | ht'
    · rw [Rect.memb_iff] at htm
      simp only [bboxNE]
      omega
    · have : Region.memb (r2 :: rs) px py = true := by
        rcases List.mem_cons.1 ht' with rfl | ht''
        · exact (Region.memb_exists_iff _ _ _).2 ⟨t, List.mem_cons_self _ _, htm⟩
        · exact (Region.memb_exists_iff _ _ _).2 ⟨t, List.mem_cons.2 (Or.inr ht''), htm⟩
      have := ih r2 this
      simp only [bboxNE]
      omega

/-- For a region whose rectangles are all non-degenerate, each of the
four bounding-box edges is attained by some pixel of the region. -/
theorem bboxNE_attained (r : Rect) (rs : Region)
    (hpos : ∀ t ∈ r :: rs, 0 < t.w ∧ 0 < t.h) :
    (∃ px py, Region.memb (r :: rs) px py = true ∧ px = (bboxNE r rs).1) ∧
    (∃ px py, Region.memb (r :: rs) px py = true ∧ px = (bboxNE r rs).2.2.1 - 1) ∧
    (∃ px py, Region.memb (r :: rs) px py = true ∧ py = (bboxNE r rs).2.1) ∧
    (∃ px py, Region.memb (r :: rs) px py = true ∧ py = (bboxNE r rs).2.2.2 - 1) := by
  induction rs generalizing r with
  | nil =>
    have hr := hpos r (List.mem_cons_self _ _)
    refine ⟨⟨r.x, r.y, ?_, by simp [bboxNE]⟩,
            ⟨r.x + r.w - 1, r.y, ?_, by simp [bboxNE]⟩,
            ⟨r.x, r.y, ?_, by simp [bboxNE]⟩,
            ⟨r.x, r.y + r.h - 1, ?_, by simp [bboxNE]⟩⟩ <;>
      · refine (Region.memb_exists_iff _ _ _).2 ⟨r, List.mem_cons_self _ _, ?_⟩
        rw [Rect.memb_iff]; omega
  | cons r2 rs ih =>
    have hr := hpos r (List.mem_cons_self _ _)
    have hpos' : ∀ t ∈ r2 :: rs, 0 < t.w ∧ 0 < t.h := fun t ht =>
      hpos t (List.mem_cons.2 (Or.inr ht))
    have ihm := ih r2 hpos'
    have hlift : ∀ px py, Region.memb (r2 :: rs) px py = true →
        Region.memb (r :: r2 :: rs) px py = true := by
      intro px py hm
      rcases (Region.memb_exists_iff _ _ _).1 hm with ⟨t, ht, htm⟩
      exact (Region.memb_exists_iff _ _ _).2 ⟨t, List.mem_cons.2 (Or.inr ht), htm⟩
    have hself : ∀ px py, r.memb px py = true →
        Region.memb (r :: r2 :: rs) px py = true := fun px py hm =>
      (Region.memb_exists_iff _ _ _).2 ⟨r, List.mem_cons_self _ _, hm⟩
    refine ⟨?_, ?_, ?_, ?_⟩
    · rcases le_or_lt r.x (bboxNE r2 rs).1 with hle | hlt
      · refine ⟨r.x, r.y, hself r.x r.y ?_, ?_⟩
        · rw [Rect.memb_iff]; omega
        · simp only [bboxNE]; omega
      · rcases ihm.1 with ⟨px, py, hm, hpx⟩
        refine ⟨px, py, hlift px py hm, ?_⟩
        simp only [bboxNE]; omega
    · rcases le_or_lt (bboxNE r2 rs).2.2.1 (r.x + r.w) with hle | hlt
      · refine ⟨r.x + r.w - 1, r.y, hself _ _ ?_, ?_⟩
        · rw [Rect.memb_iff]; omega
        · simp only [bboxNE]; omega
      · rcases ihm.2.1 with ⟨px, py, hm, hpx⟩
        refine ⟨px, py, hlift px py hm, ?_⟩
        simp only [bboxNE]; omega
    · rcases le_or_lt r.y (bboxNE r2 rs).2.1 with hle | hlt
      · refine ⟨r.x, r.y, hself r.x r.y ?_, ?_⟩
        · rw [Rect.memb_iff]; omega
        · simp only [bboxNE]; omega
      · rcases ihm.2.2.1 with ⟨px, py, hm, hpy⟩
        refine ⟨px, py, hlift px py hm, ?_⟩
        simp only [bboxNE]; omega
    · rcases le_or_lt (bboxNE r2 rs).2.2.2 (r.y + r.h) with hle | hlt
      · refine ⟨r.x, r.y + r.h - 1, hself _ _ ?_, ?_⟩
        · rw [Rect.memb_iff]; omega
        · simp only [bboxNE]; omega
      · rcases ihm.2.2.2 with ⟨px, py, hm, hpy⟩
        refine ⟨px, py, hlift px py hm, ?_⟩
        simp only [bboxNE]; omega

/-- Modelled from the spec: `XRectangleRegion(x,y,w,h)` (defined
elsewhere in the repository, not among the provided sources) builds the
native region holding exactly the pixels of the requested rectangle —
the spec's "requested_rect_as_region".  A degenerate rectangle yields a
region with no pixels. -/
def XRectangleRegion (x y w h : Int) : Region := [⟨x, y, w, h⟩]

/-- The effective pixel set of a clip-stack entry: the `NULL` sentinel
(no region) means "unclipped", every pixel. -/
def effMemb : Option Region → Int → Int → Bool
  | none, _, _ => true
  | some R, px, py => R.memb px py

/-- Result quadruple and tri-state status of `clip_box`. -/
structure ClipBoxResult where
  X : Int
  Y : Int
  W : Int
  H : Int
  status : Nat
deriving DecidableEq

/-- `Fl_GDI_Graphics_Driver::clip_box` (display-device path), translated
from the source: `X,Y,W,H` start as the query; a `NULL` top region
returns status 0; otherwise the query region is intersected with the
current region (`CombineRgn`), a `NULLREGION` result gives status 2 with
`W = H = 0`, an `EqualRgn` result gives status 0 with the query
unchanged, and otherwise status 1 with the `GetRgnBox` bounding box of
the intersection. -/
def clipBoxAux (x y w h : Int) (rr temp : Region) : ClipBoxResult :=
  match temp with
  | [] => ⟨x, y, 0, 0, 2⟩
  | t :: ts =>
    if equalRgn (t :: ts) rr then ⟨x, y, w, h, 0⟩
    else
      let bb := bboxNE t ts
      ⟨bb.1, bb.2.1, bb.2.2.1 - bb.1, bb.2.2.2 - bb.2.1, 1⟩

def clip_box (r : Option Region) (x y w h : Int) : ClipBoxResult :=
  match r with
  | none => ⟨x, y, w, h, 0⟩
  | some R =>
    clipBoxAux x y w h (XRectangleRegion x y w h)
      (Region.inter (XRectangleRegion x y w h) R)

/-- Do rectangle `a` and rectangle `q` share a pixel?  (Their
intersection is non-degenerate.) -/
def rectsOverlap (a q : Rect) : Bool :=
  decide (0 < (a.inter q).w) && decide (0 < (a.inter q).h)

/-- Model of the Win32 `RectInRegion` test: true when some pixel of the
rectangle lies in the region. -/
def rectInRegion (R : Region) (q : Rect) : Bool :=
  R.any fun a => rectsOverlap a q

theorem rectInRegion_iff (R : Region) (q : Rect) :
    rectInRegion R q = true ↔
      ∃ px py, R.memb px py = true ∧ q.memb px py = true := by
  constructor
  · intro h
    rcases List.any_eq_true.1 h with ⟨a, ha, hov⟩
    simp only [rectsOverlap, Bool.and_eq_true, decide_eq_true_eq] at hov
    have hpix : (a.inter q).memb (a.inter q).x (a.inter q).y = true := by
      rw [Rect.memb_iff]; omega
    have := (Rect.inter_memb a q _ _).1 hpix
    exact ⟨(a.inter q).x, (a.inter q).y,
      (Region.memb_exists_iff _ _ _).2 ⟨a, ha, this.1⟩, this.2⟩
  · rintro ⟨px, py, hR, hq⟩
    rcases (Region.memb_exists_iff _ _ _).1 hR with ⟨a, ha, ham⟩
    refine List.any_eq_true.2 ⟨a, ha, ?_⟩
    have : (a.inter q).memb px py = true := (Rect.inter_memb a q px py).2 ⟨ham, hq⟩
    rw [Rect.memb_iff] at this
    simp only [rectsOverlap, Bool.and_eq_true, decide_eq_true_eq]
    omega

/-- `Fl_GDI_Graphics_Driver::not_clipped` (display-device path),
translated from the source: a fast rejection of rectangles entirely at
non-positive coordinates, then `1` for a `NULL` clip region, otherwise
the Win32 `RectInRegion` test. -/
def not_clipped (r : Option Region) (x y w h : Int) : Bool :=
  if x + w ≤ 0 ∨ y + h ≤ 0 then false
  else
    match r with
    | none => true
    | some R => rectInRegion R ⟨x, y, w, h⟩

/-- Modelled from the spec: the fixed maximum clip-stack depth ("a
bounded-depth stack (fixed maximum, e.g. 32)"); the constant's value is
declared outside the provided sources and none of the claims depend on
it. -/
def region_stack_max : Nat := 32

/-- Outcome of a `push_clip`: the new stack (bottom sentinel at the end
of the list, top at the head) and whether the overflow diagnostic
(`Fl::warning`) was emitted. -/
structure PushResult where
  state : List (Option Region)
  warned : Bool

/-- The region built by `push_clip` before it is pushed: for a
non-degenerate rectangle, `XRectangleRegion` intersected (`CombineRgn`,
`RGN_AND`) with the current top-of-stack region when that is not
`NULL`; for a degenerate rectangle, the empty region
(`CreateRectRgn(0,0,0,0)`). -/
def pushedRegion (st : List (Option Region)) (x y w h : Int) : Region :=
  if 0 < w ∧ 0 < h then
    match st.head? with
    | some (some current) => Region.inter (XRectangleRegion x y w h) current
    | _ => XRectangleRegion x y w h
  else []

/-- `Fl_GDI_Graphics_Driver::push_clip`, translated from the source:
the new region is pushed while `rstackptr < region_stack_max`;
otherwise the push is dropped and the overflow warning is emitted.  The
stack is the list `rstack[rstackptr], …, rstack[0]`, so `rstackptr`
is `st.length - 1`. -/
def push_clip (st : List (Option Region)) (x y w h : Int) : PushResult :=
  if st.length - 1 < region_stack_max then
    ⟨some (pushedRegion st x y w h) :: st, false⟩
  else ⟨st, true⟩

/-- Modelled from the spec: `pop_clip` (implemented outside the provided
sources) "discards the top and reverts to the prior entry verbatim (no
recomputation)"; the bottom sentinel "is never popped". -/
def pop_clip (st : List (Option Region)) : List (Option Region) :=
  match st with
  | [] => []
  | [b] => [b]
  | _ :: rest => rest

/-- Clip-stack states reachable from the initial stack (only the
unclipped bottom sentinel) by `push_clip` and `pop_clip`. -/
inductive Reachable : List (Option Region) → Prop
  | init : Reachable [none]
  | push (st : List (Option Region)) (x y w h : Int) :
      Reachable st → Reachable (push_clip st x y w h).state
  | pop (st : List (Option Region)) : Reachable st → Reachable (pop_clip st)

/-- Each clip-stack entry's pixel set is contained in the entry below
it (the spec's depth-`N` ⊆ depth-`N-1` invariant, stated along the
list from the top down). -/
def Nested : List (Option Region) → Prop
  | [] => True
  | [_] => True
  | a :: b :: rest =>
    (∀ px py, effMemb a px py = true → effMemb b px py = true) ∧
    Nested (b :: rest)

theorem Region.memb_singleton (q : Rect) (px py : Int) :
    Region.memb [q] px py = q.memb px py := by
  simp [Region.memb]

/-- The query rectangle and the current clip state share a pixel (the
unclipped sentinel counts as every pixel). -/
def sharesPixel (r : Option Region) (q : Rect) : Prop :=
  ∃ px py, q.memb px py = true ∧ effMemb r px py = true

/-- Every pixel of the query rectangle lies in the current clip state. -/
def insideClip (r : Option Region) (q : Rect) : Prop :=
  ∀ px py, q.memb px py = true → effMemb r px py = true

/-- `res` carries the bounding box of the pixels shared by the query
rectangle and the clip state: it contains all of them and each of its
four edges is attained by one of them. -/
def tightBBox (r : Option Region) (q : Rect) (res : ClipBoxResult) : Prop :=
  (∀ px py, q.memb px py = true → effMemb r px py = true →
    res.X ≤ px ∧ px < res.X + res.W ∧ res.Y ≤ py ∧ py < res.Y + res.H) ∧
  (∃ px py, q.memb px py = true ∧ effMemb r px py = true ∧ px = res.X) ∧
  (∃ px py, q.memb px py = true ∧ effMemb r px py = true ∧ px = res.X + res.W - 1) ∧
  (∃ px py, q.memb px py = true ∧ effMemb r px py = true ∧ py = res.Y) ∧
  (∃ px py, q.memb px py = true ∧ effMemb r px py = true ∧ py = res.Y + res.H - 1)

/-- The tri-state contract of `clip_box` on a query `(x,y,w,h)` against
clip state `r`: status 2 (with the zero-size output) exactly for a
disjoint query, status 0 (output = input) exactly for a contained
query, status 1 with the tight bounding box of the overlap otherwise. -/
def ClipBoxClaim (r : Option Region) (x y w h : Int) : Prop :=
  ((clip_box r x y w h).status = 2 ↔ ¬sharesPixel r ⟨x, y, w, h⟩) ∧
  ((clip_box r x y w h).status = 2 → clip_box r x y w h = ⟨x, y, 0, 0, 2⟩) ∧
  ((clip_box r x y w h).status = 0 ↔ insideClip r ⟨x, y, w, h⟩) ∧
  ((clip_box r x y w h).status = 0 → clip_box r x y w h = ⟨x, y, w, h, 0⟩) ∧
  ((clip_box r x y w h).status = 1 → tightBBox r ⟨x, y, w, h⟩ (clip_box r x y w h)) ∧
  ((clip_box r x y w h).status = 0 ∨ (clip_box r x y w h).status = 1 ∨
    (clip_box r x y w h).status = 2)

/-- Claim C1 (amended to non-degenerate query rectangles, `w > 0` and
`h > 0`): `clip_box(x,y,w,h)` returns status 2 with `W = H = 0` iff the
query shares no pixel with the current clip state, status 0 with the
output equal to the input iff the query is contained in the clip state
(the unclipped sentinel included), and otherwise status 1 with
`(X,Y,W,H)` the bounding box of the intersection.  For a degenerate
query the disjointness and containment conditions coincide and the
statuses cannot both match, see the counterexample. -/
theorem clip_box_tri_state (r : Option Region) (x y w h : Int)
    (hw : 0 < w) (hh : 0 < h) : ClipBoxClaim r x y w h := by
  have hq : (⟨x, y, w, h⟩ : Rect).memb x y = true := by
    rw [Rect.memb_iff]; dsimp only; omega
  cases r with
  | none =>
    have hres : clip_box none x y w h = ⟨x, y, w, h, 0⟩ := rfl
    refine ⟨?_, ?_, ?_, ?_, ?_, ?_⟩ <;> rw [hres]
    · constructor
      · intro h2; exact absurd h2 (by simp)
      · intro hns; exact absurd ⟨x, y, hq, rfl⟩ hns
    · intro h2; exact absurd h2 (by simp)
    · exact ⟨fun _ px py _ => rfl, fun _ => rfl⟩
    · intro _; rfl
    · intro h1; exact absurd h1 (by simp)
    · exact Or.inl rfl
  | some R =>
    have hshape :
        ∀ px py, effMemb (some R) px py = R.memb px py := fun _ _ => rfl
    rcases hI : Region.inter (XRectangleRegion x y w h) R with _ | ⟨t, ts⟩
    · -- CombineRgn reported NULLREGION: fully outside.
      have hres : clip_box (some R) x y w h = ⟨x, y, 0, 0, 2⟩ := by
        simp only [clip_box]
        rw [hI]
        simp only [clipBoxAux]
      have hdisj := (Region.inter_eq_nil_iff _ _).1 hI
      have hns : ¬sharesPixel (some R) ⟨x, y, w, h⟩ := by
        rintro ⟨px, py, hqm, hRm⟩
        exact hdisj px py ⟨by rw [XRectangleRegion, Region.memb_singleton]; exact hqm, hRm⟩
      refine ⟨?_, ?_, ?_, ?_, ?_, ?_⟩ <;> rw [hres]
      · exact ⟨fun _ => hns, fun _ => rfl⟩
      · intro _; rfl
      · constructor
        · intro h0; exact absurd h0 (by simp)
        · intro hin
          exact absurd ⟨x, y, hq, hin x y hq⟩ hns
      · intro h0; exact absurd h0 (by simp)
      · intro h1; exact absurd h1 (by simp)
      · exact Or.inr (Or.inr rfl)
    · -- Non-empty intersection: t :: ts is the intersection region.
      have htpos : ∀ u ∈ t :: ts, 0 < u.w ∧ 0 < u.h := by
        intro u hu
        exact Region.inter_pos (by rw [hI]; exact hu)
      have hintm : ∀ px py, Region.memb (t :: ts) px py = true ↔
          ((⟨x, y, w, h⟩ : Rect).memb px py = true ∧ R.memb px py = true) := by
        intro px py
        rw [← hI, Region.memb_inter, XRectangleRegion, Region.memb_singleton]
      have hshares : sharesPixel (some R) ⟨x, y, w, h⟩ := by
        have ht0 := htpos t (List.mem_cons_self _ _)
        have : Region.memb (t :: ts) t.x t.y = true := by
          refine (Region.memb_exists_iff _ _ _).2 ⟨t, List.mem_cons_self _ _, ?_⟩
          rw [Rect.memb_iff]; omega
        rcases (hintm _ _).1 this with ⟨hqm, hRm⟩
        exact ⟨t.x, t.y, hqm, hRm⟩
      by_cases heq : equalRgn (t :: ts) (XRectangleRegion x y w h) = true
      · -- EqualRgn: the query is contained in the clip region.
        have hres : clip_box (some R) x y w h = ⟨x, y, w, h, 0⟩ := by
          simp only [clip_box]
          rw [hI]
          simp only [clipBoxAux]
          rw [if_pos heq]
        have hin : insideClip (some R) ⟨x, y, w, h⟩ := by
          intro px py hqm
          have := (equalRgn_iff _ _).1 heq px py
          rw [XRectangleRegion, Region.memb_singleton] at this
          rw [hshape]
          exact ((hintm px py).1 (this ▸ hqm)).2
        refine ⟨?_, ?_, ?_, ?_, ?_, ?_⟩ <;> rw [hres]
        · constructor
          · intro h2; exact absurd h2 (by simp)
          · intro hns; exact absurd hshares hns
        · intro h2; exact absurd h2 (by simp)
        · exact ⟨fun _ => hin, fun _ => rfl⟩
        · intro _; rfl
        · intro h1; exact absurd h1 (by simp)
        · exact Or.inl rfl
      · -- Partial intersection: GetRgnBox of the intersection.
        have hres : clip_box (some R) x y w h =
            ⟨(bboxNE t ts).1, (bboxNE t ts).2.1,
             (bboxNE t ts).2.2.1 - (bboxNE t ts).1,
             (bboxNE t ts).2.2.2 - (bboxNE t ts).2.1, 1⟩ := by
          simp only [clip_box]
          rw [hI]
          simp only [clipBoxAux]
          rw [if_neg heq]
        have hnotin : ¬insideClip (some R) ⟨x, y, w, h⟩ := by
          intro hin
          apply heq
          refine (equalRgn_iff _ _).2 fun px py => ?_
          rw [XRectangleRegion, Region.memb_singleton]
          cases hqm : (⟨x, y, w, h⟩ : Rect).memb px py with
          | true =>
            have hRm := hin px py hqm
            rw [hshape] at hRm
            exact (hintm px py).2 ⟨hqm, hRm⟩
          | false =>
            cases him : Region.memb (t :: ts) px py with
            | true =>
              have := ((hintm px py).1 him).1
              rw [hqm] at this
              exact (Bool.false_ne_true this).elim
            | false => rfl
        refine ⟨?_, ?_, ?_, ?_, ?_, ?_⟩ <;> rw [hres]
        · constructor
          · intro h2; exact absurd h2 (by simp)
          · intro hns; exact absurd hshares hns
        · intro h2; exact absurd h2 (by simp)
        · constructor
          · intro h0; exact absurd h0 (by simp)
          · intro hin; exact absurd hin hnotin
        · intro h0; exact absurd h0 (by simp)
        · intro _
          have hbounds := fun px py h => bboxNE_mem_bounds t ts px py h
          have hatt := bboxNE_attained t ts htpos
          refine ⟨?_, ?_, ?_, ?_, ?_⟩
          · intro px py hqm hRm
            have := hbounds px py ((hintm px py).2 ⟨hqm, by rw [hshape] at hRm; exact hRm⟩)
            dsimp only
            omega
          · rcases hatt.1 with ⟨px, py, hm, hpx⟩
            rcases (hintm px py).1 hm with ⟨hqm, hRm⟩
            exact ⟨px, py, hqm, hRm, by dsimp only; omega⟩
          · rcases hatt.2.1 with ⟨px, py, hm, hpx⟩
            rcases (hintm px py).1 hm with ⟨hqm, hRm⟩
            exact ⟨px, py, hqm, hRm, by dsimp only; omega⟩
          · rcases hatt.2.2.1 with ⟨px, py, hm, hpy⟩
            rcases (hintm px py).1 hm with ⟨hqm, hRm⟩
            exact ⟨px, py, hqm, hRm, by dsimp only; omega⟩
          · rcases hatt.2.2.2 with ⟨px, py, hm, hpy⟩
            rcases (hintm px py).1 hm with ⟨hqm, hRm⟩
            exact ⟨px, py, hqm, hRm, by dsimp only; omega⟩
        · exact Or.inr (Or.inl rfl)

/-- Claim C1 counterexample: for the degenerate query `(0,0,0,0)` in
the unclipped state, the query shares no pixel with the clip region
(it has no pixels at all), yet `clip_box` does not return status 2 (it
returns status 0), so the claimed "status 2 iff no shared pixel"
equivalence fails as stated for arbitrary query rectangles. -/
theorem clip_box_claim_cex :
    ¬sharesPixel none ⟨0, 0, 0, 0⟩ ∧ (clip_box none 0 0 0 0).status ≠ 2 := by
  constructor
  · rintro ⟨px, py, hqm, _⟩
    rw [Rect.memb_iff] at hqm
    dsimp only at hqm
    omega
  · decide

/-- Witness for `clip_box_tri_state` at the spec's own scenario: with
no clip pushed, `clip_box(10,10,5,5)`. -/
theorem clip_box_tri_state_witness :
    (0 : Int) < 5 ∧ ClipBoxClaim none 10 10 5 5 :=
  ⟨by decide, clip_box_tri_state none 10 10 5 5 (by decide) (by decide)⟩

theorem inter_cons_shares {A B : Region} {t : Rect} {ts : Region}
    (hI : Region.inter A B = t :: ts) :
    ∃ px py, A.memb px py = true ∧ B.memb px py = true := by
  have hpos : 0 < t.w ∧ 0 < t.h :=
    Region.inter_pos (by rw [hI]; exact List.mem_cons_self t ts)
  have hm : (Region.inter A B).memb t.x t.y = true := by
    rw [hI]
    refine (Region.memb_exists_iff _ _ _).2 ⟨t, List.mem_cons_self _ _, ?_⟩
    rw [Rect.memb_iff]; omega
  have := (Region.memb_inter A B t.x t.y).1 hm
  exact ⟨t.x, t.y, this.1, this.2⟩

theorem rectInRegion_inter (R : Region) (x y w h : Int) :
    rectInRegion R ⟨x, y, w, h⟩ = true ↔
      Region.inter (XRectangleRegion x y w h) R ≠ [] := by
  rw [rectInRegion_iff]
  constructor
  · rintro ⟨px, py, hR, hq⟩ hnil
    refine (Region.inter_eq_nil_iff _ _).1 hnil px py ⟨?_, hR⟩
    rw [XRectangleRegion, Region.memb_singleton]
    exact hq
  · intro hne
    rcases hI : Region.inter (XRectangleRegion x y w h) R with _ | ⟨t, ts⟩
    · exact (hne hI).elim
    · rcases inter_cons_shares hI with ⟨px, py, hA, hB⟩
      rw [XRectangleRegion, Region.memb_singleton] at hA
      exact ⟨px, py, hB, hA⟩

/-- Claim C3 (amended to queries passing the driver's fast-path test,
`x + w > 0` and `y + h > 0`): `not_clipped` returns false exactly when
`clip_box` reports status 2, and returns true whenever `clip_box`
reports status 0 or 1.  Without that restriction the fast-path
rejection of `not_clipped` fires on rectangles that `clip_box` still
reports as inside the (unclipped or negative-coordinate) clip state,
see the counterexample. -/
theorem not_clipped_matches_clip_box (r : Option Region) (x y w h : Int)
    (hx : 0 < x + w) (hy : 0 < y + h) :
    (not_clipped r x y w h = false ↔ (clip_box r x y w h).status = 2) ∧
    ((clip_box r x y w h).status = 0 ∨ (clip_box r x y w h).status = 1 →
      not_clipped r x y w h = true) := by
  have hncond : ¬(x + w ≤ 0 ∨ y + h ≤ 0) := by omega
  have hiff : not_clipped r x y w h = false ↔ (clip_box r x y w h).status = 2 := by
    cases r with
    | none =>
      rw [not_clipped, if_neg hncond]
      simp [clip_box]
    | some R =>
      rw [not_clipped, if_neg hncond]
      rcases hI : Region.inter (XRectangleRegion x y w h) R with _ | ⟨t, ts⟩
      · have hres : clip_box (some R) x y w h = ⟨x, y, 0, 0, 2⟩ := by
          simp only [clip_box]; rw [hI]; simp only [clipBoxAux]
        rw [hres]
        constructor
        · intro _; rfl
        · intro _
          cases hb : rectInRegion R ⟨x, y, w, h⟩ with
          | false => rfl
          | true => exact absurd hI ((rectInRegion_inter R x y w h).1 hb)
      · have hstat : (clip_box (some R) x y w h).status ≠ 2 := by
          simp only [clip_box]
          rw [hI]
          simp only [clipBoxAux]
          by_cases heq : equalRgn (t :: ts) (XRectangleRegion x y w h) = true
          · rw [if_pos heq]; simp
          · rw [if_neg heq]; simp
        have hnc : rectInRegion R ⟨x, y, w, h⟩ = true :=
          (rectInRegion_inter R x y w h).2 (by rw [hI]; simp)
        rw [hnc]
        simp [hstat]
  refine ⟨hiff, fun hst => ?_⟩
  have h2 : (clip_box r x y w h).status ≠ 2 := by omega
  cases hb : not_clipped r x y w h with
  | true => rfl
  | false => exact absurd (hiff.1 hb) h2

/-- Claim C3 counterexample: for the query `(-10,-10,5,5)` in the
unclipped state, `clip_box` reports status 0, yet `not_clipped` returns
false through its fast-path rejection of rectangles with
`x + w ≤ 0`, so "false exactly when status 2" fails as stated. -/
theorem not_clipped_claim_cex :
    not_clipped none (-10) (-10) 5 5 = false ∧
    (clip_box none (-10) (-10) 5 5).status = 0 := by
  exact ⟨rfl, rfl⟩

/-- Witness for `not_clipped_matches_clip_box` at the spec's partial
overlap scenario: clip `(0,0,10,10)`, query `(5,5,10,10)`. -/
theorem not_clipped_matches_clip_box_witness :
    (0 : Int) < 5 + 10 ∧
    ((not_clipped (some [⟨0, 0, 10, 10⟩]) 5 5 10 10 = false ↔
        (clip_box (some [⟨0, 0, 10, 10⟩]) 5 5 10 10).status = 2) ∧
      ((clip_box (some [⟨0, 0, 10, 10⟩]) 5 5 10 10).status = 0 ∨
          (clip_box (some [⟨0, 0, 10, 10⟩]) 5 5 10 10).status = 1 →
        not_clipped (some [⟨0, 0, 10, 10⟩]) 5 5 10 10 = true)) :=
  ⟨by decide,
   not_clipped_matches_clip_box (some [⟨0, 0, 10, 10⟩]) 5 5 10 10
     (by decide) (by decide)⟩

/-- Effective pixel set of the current top of the clip stack (an empty
stack behaves like the `NULL` sentinel: unclipped). -/
def topMemb (st : List (Option Region)) (px py : Int) : Bool :=
  match st.head? with
  | some e => effMemb e px py
  | none => true

theorem Region.memb_inter_bool (A B : Region) (px py : Int) :
    (Region.inter A B).memb px py = (A.memb px py && B.memb px py) := by
  rw [Bool.eq_iff_iff, Region.memb_inter, Bool.and_eq_true]

/-- Claim C2: below the stack limit, `push_clip(x,y,w,h)` pushes onto
the clip stack (without warning) a region whose pixel set is exactly
the intersection of the requested rectangle with the current
top-of-stack region when `w > 0` and `h > 0`, and an empty region
(no pixel visible) when `w ≤ 0` or `h ≤ 0` — the degenerate rectangle
is an empty clip, not an error. -/
theorem push_clip_intersects (st : List (Option Region)) (x y w h : Int)
    (hcap : st.length - 1 < region_stack_max) :
    (push_clip st x y w h).state = some (pushedRegion st x y w h) :: st ∧
    (push_clip st x y w h).warned = false ∧
    (0 < w ∧ 0 < h →
      ∀ px py, (pushedRegion st x y w h).memb px py =
        ((⟨x, y, w, h⟩ : Rect).memb px py && topMemb st px py)) ∧
    (w ≤ 0 ∨ h ≤ 0 → ∀ px py, (pushedRegion st x y w h).memb px py = false) := by
  refine ⟨?_, ?_, ?_, ?_⟩
  · rw [push_clip, if_pos hcap]
  · rw [push_clip, if_pos hcap]
  · intro hpos px py
    rw [pushedRegion, if_pos hpos, topMemb]
    cases st with
    | nil =>
      simp [XRectangleRegion, Region.memb_singleton]
    | cons e rest =>
      cases e with
      | none => simp [XRectangleRegion, Region.memb_singleton, effMemb]
      | some current =>
        simp only [List.head?]
        rw [Region.memb_inter_bool, XRectangleRegion, Region.memb_singleton]
        rfl
  · intro hdeg px py
    rw [pushedRegion, if_neg (by omega)]
    simp [Region.memb]

/-- Witness for `push_clip_intersects`: pushing `(3,4,5,6)` on the
initial one-entry stack. -/
theorem push_clip_intersects_witness :
    ([(none : Option Region)].length - 1 < region_stack_max) ∧
    ((push_clip [none] 3 4 5 6).state = some (pushedRegion [none] 3 4 5 6) :: [none] ∧
      (push_clip [none] 3 4 5 6).warned = false ∧
      (0 < (5 : Int) ∧ 0 < (6 : Int) →
        ∀ px py, (pushedRegion [none] 3 4 5 6).memb px py =
          ((⟨3, 4, 5, 6⟩ : Rect).memb px py && topMemb [none] px py)) ∧
      ((5 : Int) ≤ 0 ∨ (6 : Int) ≤ 0 →
        ∀ px py, (pushedRegion [none] 3 4 5 6).memb px py = false)) :=
  ⟨by decide, push_clip_intersects [none] 3 4 5 6 (by decide)⟩

/-- Claim C4: with the clip stack at its maximum depth
(`rstackptr = region_stack_max`, i.e. `region_stack_max + 1` live
entries), `push_clip` emits the overflow diagnostic and returns with
the stack — hence the stack pointer and the effective clip region —
unchanged.  The model is a total function: the overflow path cannot
crash. -/
theorem push_clip_overflow_safe (st : List (Option Region)) (x y w h : Int)
    (hfull : st.length = region_stack_max + 1) :
    (push_clip st x y w h).state = st ∧ (push_clip st x y w h).warned = true := by
  have hnc : ¬(st.length - 1 < region_stack_max) := by
    rw [hfull]; omega
  rw [push_clip, if_neg hnc]
  exact ⟨rfl, rfl⟩

/-- Witness for `push_clip_overflow_safe` on a full 33-entry stack. -/
theorem push_clip_overflow_safe_witness :
    (List.replicate 33 (none : Option Region)).length = region_stack_max + 1 ∧
    ((push_clip (List.replicate 33 none) 1 2 3 4).state = List.replicate 33 none ∧
      (push_clip (List.replicate 33 none) 1 2 3 4).warned = true) :=
  ⟨by decide, push_clip_overflow_safe (List.replicate 33 none) 1 2 3 4 (by decide)⟩

/-- Claim C5: in every clip-stack state reachable by `push_clip` and
`pop_clip` from the initial unclipped sentinel, each entry's pixel set
is contained in the entry below it — pushing narrows the clip, never
widens it. -/
theorem clip_stack_nested (st : List (Option Region)) (h : Reachable st) :
    Nested st := by
  induction h with
  | init => exact trivial
  | push st x y w h hst ih =>
    by_cases hcap : st.length - 1 < region_stack_max
    · rw [push_clip, if_pos hcap]
      cases st with
      | nil => exact trivial
      | cons topE rest =>
        refine ⟨?_, ih⟩
        intro px py hm
        rw [effMemb, pushedRegion] at hm
        by_cases hpos : 0 < w ∧ 0 < h
        · rw [if_pos hpos] at hm
          cases topE with
          | none => rfl
          | some current =>
            simp only [List.head?] at hm
            exact ((Region.memb_inter _ _ _ _).1 hm).2
        · rw [if_neg hpos] at hm
          simp [Region.memb] at hm
    · rw [push_clip, if_neg hcap]
      exact ih
  | pop st hst ih =>
    match st with
    | [] => exact trivial
    | [b] => exact ih
    | a :: b :: rest => exact ih.2

/-- Witness for `clip_stack_nested` at the concrete state reached by
one `push_clip` from the initial stack. -/
theorem clip_stack_nested_witness :
    Nested (push_clip [none] 0 0 5 5).state :=
  clip_stack_nested _ (Reachable.push [none] 0 0 5 5 Reachable.init)

/-- A GDI pen object as built by `change_pen_width`: a solid
(`BS_SOLID`) geometric pen with the driver's current color (`fl_RGB()`)
and the requested width. -/
structure Pen where
  color : Nat
  width : Int
deriving DecidableEq

/-- The pen state of the GDI device context: live pen objects by
handle, the currently selected handle, the driver's current color, and
a fresh-handle counter standing for GDI's allocation of distinct
handles. -/
structure GDIContext where
  pens : List (Nat × Pen)
  selected : Nat
  rgb : Nat
  nextHandle : Nat
deriving DecidableEq

/-- Model of `DeleteObject`: releases the (first) live object with the
given handle. -/
def deleteObject (h : Nat) : List (Nat × Pen) → List (Nat × Pen)
  | [] => []
  | (k, p) :: rest => if k = h then rest else (k, p) :: deleteObject h rest

/-- `Fl_GDI_Graphics_Driver::change_pen_width`, from the source: build
a new solid pen of the requested width in the current color
(`ExtCreatePen`), select it into the context (`SelectObject`), and
return the handle of the previously selected pen. -/
def change_pen_width (gc : GDIContext) (width : Int) : Nat × GDIContext :=
  (gc.selected,
   ⟨(gc.nextHandle, ⟨gc.rgb, width⟩) :: gc.pens, gc.nextHandle, gc.rgb,
    gc.nextHandle + 1⟩)

/-- `Fl_GDI_Graphics_Driver::reset_pen_width`, from the source:
`DeleteObject(SelectObject(gc_, (HPEN)data))` — select the saved pen
handle back (which returns the pen selected until now) and delete that
returned temporary pen. -/
def reset_pen_width (gc : GDIContext) (data : Nat) : GDIContext :=
  ⟨deleteObject gc.selected gc.pens, data, gc.rgb, gc.nextHandle⟩

/-- The pen object currently selected into the context, by color and
width. -/
def selectedPen (gc : GDIContext) : Option Pen :=
  (gc.pens.find? fun kp => kp.1 == gc.selected).map Prod.snd

/-- Claim C6: for every prior pen state, `change_pen_width(width)`
followed by `reset_pen_width` on the returned handle restores the
selected handle, the live-pen table (the temporary wide pen is
released), and hence the selected pen's color and width, to exactly
their values before the call. -/
theorem pen_width_roundtrip (gc : GDIContext) (width : Int) :
    (reset_pen_width (change_pen_width gc width).2 (change_pen_width gc width).1).selected
        = gc.selected ∧
    (reset_pen_width (change_pen_width gc width).2 (change_pen_width gc width).1).pens
        = gc.pens ∧
    selectedPen (reset_pen_width (change_pen_width gc width).2 (change_pen_width gc width).1)
        = selectedPen gc := by
  have hpens : (reset_pen_width (change_pen_width gc width).2
      (change_pen_width gc width).1).pens = gc.pens := by
    simp [reset_pen_width, change_pen_width, deleteObject]
  have hsel : (reset_pen_width (change_pen_width gc width).2
      (change_pen_width gc width).1).selected = gc.selected := rfl
  refine ⟨hsel, hpens, ?_⟩
  rw [selectedPen, selectedPen, hpens, hsel]

/-- Modelled from the spec: the scale transform's logical-to-device map
(declared outside the provided sources; the source calls it as
`this->floor`).  Per the spec the mapping takes the `floor` of the
coordinate scaled by the per-surface factor; the floating-point factor
is modelled as a rational. -/
def fl_floor (s : ℚ) (c : Int) : Int := ⌊(c : ℚ) * s⌋

/-- The inclusive device-pixel x-span of the rectangle edge rule used
by `overlay_rect`/`focus_rect` in the source: left edge `floor(x)`,
right edge `floor(x + w - 1)`. -/
def overlaySpanX (s : ℚ) (x w : Int) : Int × Int :=
  (fl_floor s x, fl_floor s (x + w - 1))

/-- Two inclusive device spans are exactly adjacent: the second starts
on the pixel right after the last pixel of the first — no gap, no
overlap. -/
def spansAdjacent (a b : Int × Int) : Prop := b.1 = a.2 + 1

/-- The second inclusive span starts at or before the end of the
first: the spans overlap. -/
def spansOverlap (a b : Int × Int) : Prop := b.1 ≤ a.2

/-- Claim C7 counterexample: at scale factor 2, the logical unit
rectangles `(x=0, w=1)` and `(x=1, w=1)` share the boundary `x = 1`,
but the floor rule maps them to device spans `[0,0]` and `[2,2]`:
device pixel 1 lies in neither, a one-pixel gap, so the claimed
exact adjacency does not hold for every scale factor. -/
theorem floor_rule_claim_cex :
    ¬spansAdjacent (overlaySpanX 2 0 1) (overlaySpanX 2 1 1) := by
  simp only [spansAdjacent, overlaySpanX, fl_floor]
  norm_num

/-- Claim C7 (amended): under the floor rule, for every pair of logical
rectangles sharing a boundary the device spans are exactly adjacent
when the scale factor is 1, and for every scale factor at least 1 they
never overlap; a scale factor other than 1 can leave a device-pixel
gap (see the counterexample). -/
theorem floor_rule_adjacent (s : ℚ) (x w1 w2 : Int)
    (hs : 1 ≤ s) (hw1 : 0 < w1) (hw2 : 0 < w2) :
    ¬spansOverlap (overlaySpanX s x w1) (overlaySpanX s (x + w1) w2) ∧
    (s = 1 → spansAdjacent (overlaySpanX s x w1) (overlaySpanX s (x + w1) w2)) := by
  constructor
  · rw [spansOverlap, overlaySpanX, overlaySpanX]
    dsimp only
    rw [fl_floor, fl_floor]
    intro hle
    have h1 : ((x + w1 - 1 : Int) : ℚ) * s + 1 ≤ ((x + w1 : Int) : ℚ) * s := by
      push_cast
      nlinarith
    have h2 : ⌊((x + w1 - 1 : Int) : ℚ) * s⌋ + 1 ≤ ⌊((x + w1 : Int) : ℚ) * s⌋ := by
      rw [show ⌊((x + w1 - 1 : Int) : ℚ) * s⌋ + 1 = ⌊((x + w1 - 1 : Int) : ℚ) * s + 1⌋ by
        rw [Int.floor_add_one]]
      exact Int.floor_le_floor h1
    omega
  · intro hs1
    subst hs1
    rw [spansAdjacent, overlaySpanX, overlaySpanX]
    dsimp only
    rw [fl_floor, fl_floor, mul_one, mul_one, Int.floor_intCast, Int.floor_intCast]
    omega

/-- Witness for `floor_rule_adjacent` at unit scale with two adjacent
unit rectangles. -/
theorem floor_rule_adjacent_witness :
    (1 : ℚ) ≤ 1 ∧ (0 : Int) < 1 ∧
    (¬spansOverlap (overlaySpanX 1 0 1) (overlaySpanX 1 (0 + 1) 1) ∧
      ((1 : ℚ) = 1 → spansAdjacent (overlaySpanX 1 0 1) (overlaySpanX 1 (0 + 1) 1))) :=
  ⟨le_refl 1, by decide, floor_rule_adjacent 1 0 1 1 (le_refl 1) (by decide) (by decide)⟩

/-- Model of Win32 `MoveToEx` + `LineTo` from `(x0,y0)` to `(x1,y1)`:
the drawn pixel sequence includes the starting pixel and, per the GDI
contract, excludes the endpoint.  Interior pixels follow a floor-DDA
rasterization; the claims depend only on the endpoint handling and the
axis-aligned cases, which are exact. -/
def lineToPixels (x0 y0 x1 y1 : Int) : List (Int × Int) :=
  (List.range (max (x1 - x0).natAbs (y1 - y0).natAbs)).map fun (i : Nat) =>
    (x0 + ((x1 - x0) * (i : Int)).fdiv (max (x1 - x0).natAbs (y1 - y0).natAbs : Nat),
     y0 + ((y1 - y0) * (i : Int)).fdiv (max (x1 - x0).natAbs (y1 - y0).natAbs : Nat))

/-- `Fl_GDI_Graphics_Driver::line_unscaled` (two-point form), from the
source: the native line plus an explicit `SetPixel` on the terminal
point. -/
def line_unscaled (x y x1 y1 : Int) : List (Int × Int) :=
  lineToPixels x y x1 y1 ++ [(x1, y1)]

/-- `Fl_GDI_Graphics_Driver::line_unscaled` (three-point form), from
the source: two native segments plus an explicit `SetPixel` on the
terminal point. -/
def line_unscaled3 (x y x1 y1 x2 y2 : Int) : List (Int × Int) :=
  lineToPixels x y x1 y1 ++ lineToPixels x1 y1 x2 y2 ++ [(x2, y2)]

/-- `Fl_GDI_Graphics_Driver::xyline_unscaled`, from the source: a
horizontal native line to `(x1 + 1, y)`, overshooting by one to
compensate for the omitted terminal pixel. -/
def xyline_unscaled (x y x1 : Int) : List (Int × Int) :=
  lineToPixels x y (x1 + 1) y

/-- `Fl_GDI_Graphics_Driver::yxline_unscaled`, from the source: a
vertical native line to `(x, y1 + 1)`. -/
def yxline_unscaled (x y y1 : Int) : List (Int × Int) :=
  lineToPixels x y x (y1 + 1)

/-- `Fl_GDI_Graphics_Driver::loop_unscaled` (three vertices), from the
source: three native segments closing back to the start. -/
def loop_unscaled (x y x1 y1 x2 y2 : Int) : List (Int × Int) :=
  lineToPixels x y x1 y1 ++ lineToPixels x1 y1 x2 y2 ++ lineToPixels x2 y2 x y

/-- `Fl_GDI_Graphics_Driver::loop_unscaled` (four vertices), from the
source. -/
def loop_unscaled4 (x y x1 y1 x2 y2 x3 y3 : Int) : List (Int × Int) :=
  lineToPixels x y x1 y1 ++ lineToPixels x1 y1 x2 y2 ++
  lineToPixels x2 y2 x3 y3 ++ lineToPixels x3 y3 x y

/-- Claim C8 counterexample: `xyline_unscaled(5, 0, 2)` — a horizontal
line given right-to-left — draws pixels `(5,0)` and `(4,0)` only: the
`x1 + 1` overshoot compensates the omitted terminal pixel only for
left-to-right lines, so the final endpoint `(2,0)` is not drawn. -/
theorem xyline_terminal_cex : ((2 : Int), (0 : Int)) ∉ xyline_unscaled 5 0 2 := by
  decide

/-- Claim C8 (amended): `line_unscaled` (two- and three-point forms)
draws its final endpoint pixel for every input (via the explicit
`SetPixel`); `xyline_unscaled` and `yxline_unscaled` draw theirs for
lines given in increasing coordinate order (`x ≤ x1`, resp. `y ≤ y1`),
the order in which the scaled wrappers call them; a descending
axis-aligned line misses its endpoint (see the counterexample). -/
theorem terminal_pixel_drawn :
    (∀ x y x1 y1 : Int, (x1, y1) ∈ line_unscaled x y x1 y1) ∧
    (∀ x y x1 y1 x2 y2 : Int, (x2, y2) ∈ line_unscaled3 x y x1 y1 x2 y2) ∧
    (∀ x y x1 : Int, x ≤ x1 → (x1, y) ∈ xyline_unscaled x y x1) ∧
    (∀ x y y1 : Int, y ≤ y1 → (x, y1) ∈ yxline_unscaled x y y1) := by
  have hmem : ∀ x y x1 : Int, x ≤ x1 → (x1, y) ∈ lineToPixels x y (x1 + 1) y := by
    intro x y x1 hle
    rw [lineToPixels]
    have hzero : (y - y).natAbs = 0 := by omega
    have hnpos : (0 : Int) < x1 + 1 - x := by omega
    have hncast : ((max (x1 + 1 - x).natAbs (y - y).natAbs : Nat) : Int) = x1 + 1 - x := by
      rw [hzero]
      omega
    refine List.mem_map.2 ⟨(x1 - x).toNat, List.mem_range.2 ?_, ?_⟩
    · rw [hzero]
      omega
    · have hx : ((x1 + 1 - x) * ((x1 - x).toNat : Int)).fdiv
          ((max (x1 + 1 - x).natAbs (y - y).natAbs : Nat) : Int) = x1 - x := by
        rw [hncast, Int.mul_fdiv_cancel_left _ (by omega)]
        omega
      have hy : ((y - y) * ((x1 - x).toNat : Int)).fdiv
          ((max (x1 + 1 - x).natAbs (y - y).natAbs : Nat) : Int) = 0 := by
        rw [show y - y = 0 by omega, zero_mul, Int.zero_fdiv]
      rw [hx, hy]
      refine Prod.ext ?_ ?_ <;> dsimp only <;> omega
  refine ⟨?_, ?_, ?_, ?_⟩
  · intro x y x1 y1
    rw [line_unscaled]
    exact List.mem_append_right _ (List.mem_singleton.2 rfl)
  · intro x y x1 y1 x2 y2
    rw [line_unscaled3]
    exact List.mem_append_right _ (List.mem_singleton.2 rfl)
  · intro x y x1 hle
    rw [xyline_unscaled]
    exact hmem x y x1 hle
  · intro x y y1 hle
    rw [yxline_unscaled, lineToPixels]
    have hzero : (x - x).natAbs = 0 := by omega
    have hncast : ((max (x - x).natAbs (y1 + 1 - y).natAbs : Nat) : Int) = y1 + 1 - y := by
      rw [hzero]
      omega
    refine List.mem_map.2 ⟨(y1 - y).toNat, List.mem_range.2 ?_, ?_⟩
    · rw [hzero]
      omega
    · have hx : ((x - x) * (((y1 - y).toNat : Nat) : Int)).fdiv
          ((max (x - x).natAbs (y1 + 1 - y).natAbs : Nat) : Int) = 0 := by
        rw [show x - x = 0 by omega, zero_mul, Int.zero_fdiv]
      have hy : ((y1 + 1 - y) * (((y1 - y).toNat : Nat) : Int)).fdiv
          ((max (x - x).natAbs (y1 + 1 - y).natAbs : Nat) : Int) = y1 - y := by
        rw [hncast, Int.mul_fdiv_cancel_left _ (by omega)]
        omega
      rw [hx, hy]
      refine Prod.ext ?_ ?_ <;> dsimp only <;> omega


/-- Witness for `terminal_pixel_drawn` on concrete ascending lines. -/
theorem terminal_pixel_drawn_witness :
    (0 : Int) ≤ 7 ∧ (4 : Int) ≤ 9 ∧
    ((7 : Int), (2 : Int)) ∈ xyline_unscaled 0 2 7 ∧
    ((3 : Int), (9 : Int)) ∈ yxline_unscaled 3 4 9 :=
  ⟨by decide, by decide,
   terminal_pixel_drawn.2.2.1 0 2 7 (by decide),
   terminal_pixel_drawn.2.2.2 3 4 9 (by decide)⟩

/-- Keep the elements at odd values of a running counter: `takeOdd i l`
retains `l`'s head iff `i` is odd and recurses with `i + 1` — the
`if (i & 1) SetPixel(...)` pattern of `focus_rect`. -/
def takeOdd {α : Type} : Nat → List α → List α
  | _, [] => []
  | i, a :: l => if i % 2 = 1 then a :: takeOdd (i + 1) l else takeOdd (i + 1) l

theorem takeOdd_subset {α : Type} (i : Nat) (l : List α) (p : α)
    (h : p ∈ takeOdd i l) : p ∈ l := by
  induction l generalizing i with
  | nil => simp [takeOdd] at h
  | cons a t ih =>
    rw [takeOdd] at h
    by_cases hi : i % 2 = 1
    · rw [if_pos hi] at h
      rcases List.mem_cons.1 h with rfl | h'
      · exact List.mem_cons_self _ _
      · exact List.mem_cons.2 (Or.inr (ih _ h'))
    · rw [if_neg hi] at h
      exact List.mem_cons.2 (Or.inr (ih _ h))

theorem takeOdd_append {α : Type} (l1 l2 : List α) (i : Nat) :
    takeOdd i (l1 ++ l2) = takeOdd i l1 ++ takeOdd (i + l1.length) l2 := by
  induction l1 generalizing i with
  | nil => simp [takeOdd]
  | cons a t ih =>
    have harith : i + 1 + t.length = i + (a :: t).length := by
      simp only [List.length_cons]
      omega
    rw [List.cons_append]
    rw [show takeOdd i (a :: (t ++ l2)) =
      if i % 2 = 1 then a :: takeOdd (i + 1) (t ++ l2)
      else takeOdd (i + 1) (t ++ l2) from rfl]
    rw [show takeOdd i (a :: t) =
      if i % 2 = 1 then a :: takeOdd (i + 1) t
      else takeOdd (i + 1) t from rfl]
    by_cases hi : i % 2 = 1
    · rw [if_pos hi, if_pos hi, ih (i + 1), harith, List.cons_append]
    · rw [if_neg hi, if_neg hi, ih (i + 1), harith]

/-- One `for (k = 0; k < n; k++, i++) if (i & 1) SetPixel(f(k))` loop
of `focus_rect`, with starting counter value `i0`. -/
def plotEveryOther (f : Nat → Int × Int) (n : Nat) (i0 : Nat) : List (Int × Int) :=
  (List.range n).filterMap fun (k : Nat) =>
    if (i0 + k) % 2 = 1 then some (f k) else none

theorem takeOdd_map_range (f : Nat → Int × Int) (n i0 : Nat) :
    takeOdd i0 ((List.range n).map f) = plotEveryOther f n i0 := by
  induction n generalizing i0 with
  | zero => simp [takeOdd, plotEveryOther]
  | succ n ih =>
    rw [plotEveryOther, List.range_succ, List.filterMap_append, List.map_append,
      takeOdd_append, List.map_singleton, List.length_map, List.length_range,
      ih i0, plotEveryOther]
    congr 1
    by_cases hp : (i0 + n) % 2 = 1
    · simp [takeOdd, hp]
    · simp [takeOdd, hp]

/-- `Fl_GDI_Graphics_Driver::focus_rect`, from the source: the device
origin and extents come from the floor rule (`W = floor(x+w-1) -
floor(x) + 1`, similarly `H`), then four `SetPixel` loops walk the top
edge left-to-right, the right edge (at column `X + W`) top-to-bottom,
the bottom edge (at row `Y + H`) right-to-left and the left edge
bottom-to-top, all sharing one counter `i` that starts at 1,
increments every iteration and plots on odd values. -/
def focus_rect (s : ℚ) (x y w h : Int) : List (Int × Int) :=
  let X := fl_floor s x
  let Y := fl_floor s y
  let W := fl_floor s (x + w - 1) - X + 1
  let H := fl_floor s (y + h - 1) - Y + 1
  let n1 := W.toNat
  let n2 := H.toNat
  plotEveryOther (fun xx => (X + xx, Y)) n1 1 ++
  plotEveryOther (fun yy => (X + W, Y + yy)) n2 (1 + n1) ++
  plotEveryOther (fun k => (X + W - k, Y + H)) n1 (1 + n1 + n2) ++
  plotEveryOther (fun k => (X, Y + H - k)) n2 (1 + n1 + n2 + n1)

/-- The full clockwise perimeter walk described by the claim: starting
at the device top-left corner, top edge left-to-right, right edge
top-to-bottom, bottom edge right-to-left, left edge bottom-to-top,
over the device rectangle `focus_rect` uses. -/
def clockwiseTour (s : ℚ) (x y w h : Int) : List (Int × Int) :=
  let X := fl_floor s x
  let Y := fl_floor s y
  let W := fl_floor s (x + w - 1) - X + 1
  let H := fl_floor s (y + h - 1) - Y + 1
  ((List.range W.toNat).map fun (k : Nat) => (X + k, Y)) ++
  ((List.range H.toNat).map fun (k : Nat) => (X + W, Y + k)) ++
  ((List.range W.toNat).map fun (k : Nat) => (X + W - k, Y + H)) ++
  ((List.range H.toNat).map fun (k : Nat) => (X, Y + H - k))

/-- Membership in the perimeter of the device rectangle the floor rule
itself produces from `(x,y,w,h)`: corners `(floor x, floor y)` and
`(floor(x+w-1), floor(y+h-1))`.  This is the perimeter the claim
asserts the plotted pixels lie on. -/
def onFloorRulePerimeter (s : ℚ) (x y w h : Int) (p : Int × Int) : Prop :=
  (fl_floor s x ≤ p.1 ∧ p.1 ≤ fl_floor s (x + w - 1) ∧
   fl_floor s y ≤ p.2 ∧ p.2 ≤ fl_floor s (y + h - 1)) ∧
  (p.1 = fl_floor s x ∨ p.1 = fl_floor s (x + w - 1) ∨
   p.2 = fl_floor s y ∨ p.2 = fl_floor s (y + h - 1))

/-- Membership in the perimeter `focus_rect` actually traces: the
right column and bottom row sit one past the floor-rule upper bounds,
at `floor(x+w-1) + 1` and `floor(y+h-1) + 1`. -/
def onFocusPerimeter (s : ℚ) (x y w h : Int) (p : Int × Int) : Prop :=
  (fl_floor s x ≤ p.1 ∧ p.1 ≤ fl_floor s (x + w - 1) + 1 ∧
   fl_floor s y ≤ p.2 ∧ p.2 ≤ fl_floor s (y + h - 1) + 1) ∧
  (p.1 = fl_floor s x ∨ p.1 = fl_floor s (x + w - 1) + 1 ∨
   p.2 = fl_floor s y ∨ p.2 = fl_floor s (y + h - 1) + 1)

/-- Claim C9 counterexample: `focus_rect(0,0,2,2)` at scale 1 plots the
pixel `(2,0)` (first pixel of the right-edge loop), but the rectangle
whose device bounds the floor rule derives from `(0,0,2,2)` is
`[0,1] × [0,1]` — the plotted pixel lies one past its perimeter. -/
theorem fl_floor_one (c : Int) : fl_floor 1 c = c := by
  rw [fl_floor, mul_one, Int.floor_intCast]

theorem focus_rect_claim_cex :
    ((2 : Int), (0 : Int)) ∈ focus_rect 1 0 0 2 2 ∧
    ¬onFloorRulePerimeter 1 0 0 2 2 (2, 0) := by
  constructor
  · simp only [focus_rect, fl_floor_one]
    norm_num
    decide
  · intro hp
    have h1 := hp.1.2.1
    rw [fl_floor_one] at h1
    norm_num at h1

/-- Claim C9 (amended): for positive scale and a rectangle with
`w > 0` and `h > 0`, `focus_rect` plots exactly every other pixel of
the fixed clockwise traversal starting at the device top-left corner
(top edge left-to-right, right edge top-to-bottom, bottom edge
right-to-left, left edge bottom-to-top), and every plotted pixel lies
on the perimeter of the device rectangle with corners
`(floor x, floor y)` and `(floor(x+w-1) + 1, floor(y+h-1) + 1)` — one
pixel wider and taller than the floor-rule rectangle of the original
claim (see the counterexample). -/
theorem focus_rect_every_other_on_perimeter (s : ℚ) (x y w h : Int)
    (hs : 0 < s) (hw : 0 < w) (hh : 0 < h) :
    focus_rect s x y w h = takeOdd 1 (clockwiseTour s x y w h) ∧
    ∀ p ∈ focus_rect s x y w h, onFocusPerimeter s x y w h p := by
  have hmono : ∀ a b : Int, a ≤ b → fl_floor s a ≤ fl_floor s b := by
    intro a b hab
    rw [fl_floor, fl_floor]
    refine Int.floor_le_floor ?_
    have : (a : ℚ) ≤ (b : ℚ) := by exact_mod_cast hab
    exact mul_le_mul_of_nonneg_right this (le_of_lt hs)
  have hW : fl_floor s x ≤ fl_floor s (x + w - 1) := hmono x (x + w - 1) (by omega)
  have hH : fl_floor s y ≤ fl_floor s (y + h - 1) := hmono y (y + h - 1) (by omega)
  have htour : focus_rect s x y w h = takeOdd 1 (clockwiseTour s x y w h) := by
    rw [focus_rect, clockwiseTour]
    rw [takeOdd_append, takeOdd_append, takeOdd_append]
    simp only [List.length_append, List.length_map, List.length_range]
    rw [takeOdd_map_range, takeOdd_map_range, takeOdd_map_range, takeOdd_map_range]
    have e2 : 1 + ((fl_floor s (x + w - 1) - fl_floor s x + 1).toNat +
        (fl_floor s (y + h - 1) - fl_floor s y + 1).toNat) =
        1 + (fl_floor s (x + w - 1) - fl_floor s x + 1).toNat +
        (fl_floor s (y + h - 1) - fl_floor s y + 1).toNat := by omega
    have e3 : 1 + ((fl_floor s (x + w - 1) - fl_floor s x + 1).toNat +
        (fl_floor s (y + h - 1) - fl_floor s y + 1).toNat +
        (fl_floor s (x + w - 1) - fl_floor s x + 1).toNat) =
        1 + (fl_floor s (x + w - 1) - fl_floor s x + 1).toNat +
        (fl_floor s (y + h - 1) - fl_floor s y + 1).toNat +
        (fl_floor s (x + w - 1) - fl_floor s x + 1).toNat := by omega
    rw [e2, e3]
  refine ⟨htour, ?_⟩
  intro p hp
  rw [htour] at hp
  have hp' := takeOdd_subset _ _ _ hp
  rw [clockwiseTour] at hp'
  simp only [List.append_assoc, List.mem_append] at hp'
  rcases hp' with h1 | h2 | h3 | h4
  · rcases List.mem_map.1 h1 with ⟨k, hk, rfl⟩
    rw [List.mem_range] at hk
    exact ⟨by dsimp only; omega, by dsimp only; omega⟩
  · rcases List.mem_map.1 h2 with ⟨k, hk, rfl⟩
    rw [List.mem_range] at hk
    refine ⟨by dsimp only; omega, ?_⟩
    refine Or.inr (Or.inl ?_)
    dsimp only
    omega
  · rcases List.mem_map.1 h3 with ⟨k, hk, rfl⟩
    rw [List.mem_range] at hk
    refine ⟨by dsimp only; omega, ?_⟩
    refine Or.inr (Or.inr (Or.inr ?_))
    dsimp only
    omega
  · rcases List.mem_map.1 h4 with ⟨k, hk, rfl⟩
    rw [List.mem_range] at hk
    exact ⟨by dsimp only; omega, Or.inl rfl⟩

/-- Witness for `focus_rect_every_other_on_perimeter` on the rectangle
`(0,0,2,2)` at scale 1. -/
theorem focus_rect_every_other_on_perimeter_witness :
    (0 : ℚ) < 1 ∧ (0 : Int) < 2 ∧
    (focus_rect 1 0 0 2 2 = takeOdd 1 (clockwiseTour 1 0 0 2 2) ∧
      ∀ p ∈ focus_rect 1 0 0 2 2, onFocusPerimeter 1 0 0 2 2 p) :=
  ⟨by norm_num, by decide,
   focus_rect_every_other_on_perimeter 1 0 0 2 2 (by norm_num) (by decide) (by decide)⟩

/-- Which driver color slot a fill or stroke consumes. -/
inductive ColorSlot
  | pen
  | brush
deriving DecidableEq

/-- The effect of a filled-rectangle primitive: the color slot it
consumes and the device rectangle whose pixels it fills. -/
structure DrawEffect where
  slot : ColorSlot
  area : Rect
deriving DecidableEq

/-- `Fl_GDI_Graphics_Driver::rectf_unscaled`, from the source:
`FillRect(gc_, RECT(x, y, x+w, y+h), fl_brush())` — a brush (fill
color) operation over the pixels `[x, x+w) × [y, y+h)` (the `RECT`
right and bottom edges are exclusive for `FillRect`). -/
def rectf_unscaled (x y w h : Int) : DrawEffect :=
  ⟨ColorSlot.brush, ⟨x, y, w, h⟩⟩

/-- Modelled from the spec: the driver-interface `rectf(x,y,w,h)`
(whose scaled wrapper is declared outside the provided sources) fills
the requested rectangle through `rectf_unscaled`; the claim is stated
at the device (unscaled) level, where it forwards directly. -/
def rectf (x y w h : Int) : DrawEffect := rectf_unscaled x y w h

/-- `Fl_GDI_Graphics_Driver::point`, from the source:
`rectf(x, y, 1, 1)`. -/
def point (x y : Int) : DrawEffect := rectf x y 1 1

/-- Claim C10: `point(x,y)` is exactly `rectf(x,y,1,1)`: it is a brush
(fill) operation, not a pen stroke, and its filled area is exactly the
single pixel `(x,y)` — so `point` and a one-pixel filled rectangle are
interchangeable. -/
theorem point_is_rectf (x y : Int) :
    point x y = rectf x y 1 1 ∧
    (point x y).slot = ColorSlot.brush ∧
    (∀ px py, (point x y).area.memb px py =
      (decide (px = x) && decide (py = y))) := by
  refine ⟨rfl, rfl, ?_⟩
  intro px py
  rw [Bool.eq_iff_iff, Rect.memb_iff]
  simp only [point, rectf, rectf_unscaled, Bool.and_eq_true, decide_eq_true_eq]
  omega

end FlGDI
